import Mathlib

/-!
# Verification of the `humane` slog handler (telemachus/humane)

Shallow embedding of `humane.go` (package `humane`): a `log/slog.Handler`
rendering a structured log record into one human-scannable text line.

Modelling conventions:
* Go strings and byte buffers are byte lists (`List Nat`, each element a byte
  value `< 256`); `ascii` converts an ASCII-only Lean string literal to bytes.
* `unicode.IsPrint` from the Go standard library ranges over the full Unicode
  printability tables, which are impractical to transcribe; every definition
  that needs it is parametrised by a function `isPrint : Nat → Bool` standing
  for it.  `unicode.IsSpace` tests exactly Unicode's White_Space property,
  whose code-point list is small; it is transcribed exactly (`isSpaceGo`).
* `time.Time.AppendFormat` and the `fmt.Sprint` fallback are abstracted as
  fields of an `Env` record, since their output is irrelevant to every claim:
  the handler never inspects the bytes they produce.
* The repo-internal `internal/buffer` package (absent from the sources given)
  is, per the spec, a private per-call byte buffer with append-only writes;
  it is modelled as a `List Nat` accumulator.
-/

/-- Bytes of an ASCII-only string literal (each `Char.toNat < 128`). -/
def ascii (s : String) : List Nat := s.data.map Char.toNat

/-- Decimal digits of `n`, fuel-indexed so it reduces by `decide`/`rfl`.
Fuel `n+1` always suffices since `n / 10 < n` for `n ≥ 10`. -/
def itoaAux : Nat → Nat → List Nat
  | 0, _ => []
  | fuel + 1, n => if n < 10 then [48 + n] else itoaAux fuel (n / 10) ++ [48 + n % 10]

/-- Base-10 rendering of a natural number, as `strconv.AppendUint` does. -/
def itoa (n : Nat) : List Nat := itoaAux (n + 1) n

/-- Base-10 rendering of an integer, as `strconv.AppendInt` does
(a leading `-` for negative values). -/
def intToBytes (i : Int) : List Nat :=
  if i < 0 then 0x2D :: itoa i.natAbs else itoa i.toNat

/-- Model of `strings.Join(groups, ".")`. -/
def joinDot : List (List Nat) → List Nat
  | [] => []
  | [g] => g
  | g :: gs => g ++ 0x2E :: joinDot gs

/-- Lower-case hex digit, as Go's `lowerhex` table. -/
def hexDigit (n : Nat) : Nat := if n < 10 then 48 + n else 87 + n

/-- Two lower-case hex digits of a byte (`\xHH` escapes). -/
def hex2 (b : Nat) : List Nat := [hexDigit (b / 16 % 16), hexDigit (b % 16)]

/-- Four lower-case hex digits (`\uHHHH` escapes). -/
def hex4 (r : Nat) : List Nat :=
  [hexDigit (r / 4096 % 16), hexDigit (r / 256 % 16), hexDigit (r / 16 % 16), hexDigit (r % 16)]

/-- Eight lower-case hex digits (`\UHHHHHHHH` escapes). -/
def hex8 (r : Nat) : List Nat := hex4 (r / 65536) ++ hex4 (r % 65536)

/-- UTF-8 encoding of a code point, as `utf8.AppendRune` for valid runes. -/
def utf8Encode (r : Nat) : List Nat :=
  if r < 0x80 then [r]
  else if r < 0x800 then [0xC0 + r / 64, 0x80 + r % 64]
  else if r < 0x10000 then [0xE0 + r / 4096, 0x80 + r / 64 % 64, 0x80 + r % 64]
  else [0xF0 + r / 262144, 0x80 + r / 4096 % 64, 0x80 + r / 64 % 64, 0x80 + r % 64]

/-- Go's `unicode.IsSpace`: membership in Unicode's White_Space property,
transcribed exactly from the `unicode.White_Space` range table. -/
def isSpaceGo (r : Nat) : Bool :=
  (0x09 ≤ r && r ≤ 0x0D) || r == 0x20 || r == 0x85 || r == 0xA0 ||
  r == 0x1680 || (0x2000 ≤ r && r ≤ 0x200A) || r == 0x2028 || r == 0x2029 ||
  r == 0x202F || r == 0x205F || r == 0x3000

/-- The handler's ASCII table (named `unsafe` in the source, a banned
identifier here): exactly space, double quote and equals sign are marked. -/
def forceQuoteByte (b : Nat) : Bool := b == 0x20 || b == 0x22 || b == 0x3D

/-- Continuation-byte test for UTF-8 decoding (`0x80 ≤ b ≤ 0xBF`). -/
def isCont (b : Nat) : Bool := 0x80 ≤ b && b ≤ 0xBF

/-- Accept range for the second byte of a three-byte sequence
(`utf8.acceptRanges`: `E0` requires `A0..BF`, `ED` requires `80..9F`). -/
def cont3ok (b b1 : Nat) : Bool :=
  if b == 0xE0 then 0xA0 ≤ b1 && b1 ≤ 0xBF
  else if b == 0xED then 0x80 ≤ b1 && b1 ≤ 0x9F
  else isCont b1

/-- Accept range for the second byte of a four-byte sequence
(`F0` requires `90..BF`, `F4` requires `80..8F`). -/
def cont4ok (b b1 : Nat) : Bool :=
  if b == 0xF0 then 0x90 ≤ b1 && b1 ≤ 0xBF
  else if b == 0xF4 then 0x80 ≤ b1 && b1 ≤ 0x8F
  else isCont b1

/-- The per-code-point test of `needsQuoting`:
`r == utf8.RuneError || unicode.IsSpace(r) || !unicode.IsPrint(r)`. -/
def badRune (isPrint : Nat → Bool) (r : Nat) : Bool :=
  r == 0xFFFD || isSpaceGo r || !(isPrint r)

/-- Outcome of `utf8.DecodeRuneInString` on a non-ASCII head byte: a decoded
code point together with the bytes after its encoding, or a failure —
Go's decoder reports every failure as `(RuneError, 1)`, i.e. the scan then
advances exactly one byte. -/
inductive Utf8Decode where
  | ok (r : Nat) (remaining : List Nat)
  | err
deriving DecidableEq

/-- Model of `utf8.DecodeRuneInString` for a head byte `b ≥ 0x80` followed
by `rest`, transcribing the decoder's accept ranges. -/
def decodeNonAscii (b : Nat) (rest : List Nat) : Utf8Decode :=
  if b < 0xC2 then .err
  else if b ≤ 0xDF then
    match rest with
    | b1 :: rest' =>
      if isCont b1 then .ok ((b - 0xC0) * 64 + (b1 - 0x80)) rest' else .err
    | [] => .err
  else if b ≤ 0xEF then
    match rest with
    | b1 :: b2 :: rest' =>
      if cont3ok b b1 && isCont b2 then
        .ok ((b - 0xE0) * 4096 + (b1 - 0x80) * 64 + (b2 - 0x80)) rest'
      else .err
    | _ => .err
  else if b ≤ 0xF4 then
    match rest with
    | b1 :: b2 :: b3 :: rest' =>
      if cont4ok b b1 && isCont b2 && isCont b3 then
        .ok ((b - 0xF0) * 262144 + (b1 - 0x80) * 4096 + (b2 - 0x80) * 64 + (b3 - 0x80)) rest'
      else .err
    | _ => .err
  else .err

/-- Model of the scan loop of `needsQuoting` from `humane.go`, fuel-indexed
so the recursion is structural (every step consumes at least one byte, so
fuel equal to the byte count suffices): an ASCII byte is checked against
the table; otherwise one code point is decoded — a failed decode yields the
error rune, which `badRune` flags, so the scan returns `true` right there,
exactly as the source's `r == utf8.RuneError` test does. -/
def needsQuotingAux (isPrint : Nat → Bool) : Nat → List Nat → Bool
  | _, [] => false
  | 0, _ => false
  | fuel + 1, b :: rest =>
    if b < 0x80 then forceQuoteByte b || needsQuotingAux isPrint fuel rest
    else
      match decodeNonAscii b rest with
      | .ok r remaining => badRune isPrint r || needsQuotingAux isPrint fuel remaining
      | .err => true

/-- Model of `needsQuoting` from `humane.go`. -/
def needsQuotingGo (isPrint : Nat → Bool) (s : List Nat) : Bool :=
  needsQuotingAux isPrint s.length s

/-- One escaped rune of `strconv.AppendQuote`'s body
(`appendEscapedRune` with quote character `"`). -/
def escapedRune (isPrint : Nat → Bool) (r : Nat) : List Nat :=
  if r = 0x22 ∨ r = 0x5C then [0x5C, r]
  else if isPrint r then utf8Encode r
  else if r = 0x07 then [0x5C, 0x61]
  else if r = 0x08 then [0x5C, 0x62]
  else if r = 0x0C then [0x5C, 0x66]
  else if r = 0x0A then [0x5C, 0x6E]
  else if r = 0x0D then [0x5C, 0x72]
  else if r = 0x09 then [0x5C, 0x74]
  else if r = 0x0B then [0x5C, 0x76]
  else if r < 0x20 ∨ r = 0x7F then 0x5C :: 0x78 :: hex2 r
  else if r < 0x10000 then 0x5C :: 0x75 :: hex4 r
  else 0x5C :: 0x55 :: hex8 r

/-- Body of `strconv.AppendQuote`, fuel-indexed so that the recursion is
structural (each step consumes at least one byte, so fuel equal to the byte
count always suffices): escape each rune; an invalid byte is emitted as a
`\xHH` escape of that single byte and the scan advances one byte, exactly
as Go's `appendQuotedWith`. -/
def quoteBodyAux (isPrint : Nat → Bool) : Nat → List Nat → List Nat
  | _, [] => []
  | 0, _ => []
  | fuel + 1, b :: rest =>
    if b < 0x80 then escapedRune isPrint b ++ quoteBodyAux isPrint fuel rest
    else
      match decodeNonAscii b rest with
      | .ok r remaining => escapedRune isPrint r ++ quoteBodyAux isPrint fuel remaining
      | .err => 0x5C :: 0x78 :: hex2 b ++ quoteBodyAux isPrint fuel rest

/-- Body of `strconv.AppendQuote` on a byte string. -/
def quoteBody (isPrint : Nat → Bool) (s : List Nat) : List Nat :=
  quoteBodyAux isPrint s.length s

/-- Model of `strconv.AppendQuote`'s appended text: opening quote, escaped
body, closing quote. -/
def goQuote (isPrint : Nat → Bool) (s : List Nat) : List Nat :=
  0x22 :: quoteBody isPrint s ++ [0x22]

/-- Model of `appendString` from `humane.go`: quote the string when
`needsQuoting` says so, otherwise copy it verbatim. -/
def appendStringGo (isPrint : Nat → Bool) (buf s : List Nat) : List Nat :=
  if needsQuotingGo isPrint s then buf ++ goQuote isPrint s else buf ++ s

/-- A scanned unit of a byte string, as the spec's quoting predicate reads
it: a unit of the ASCII range, a validly decoded non-ASCII code point, or an
invalid encoding. -/
inductive ScanUnit where
  | uascii (b : Nat)
  | uvalid (r : Nat)
  | uinvalid
deriving DecidableEq

/-- Decomposition of a byte string into scanned units, fuel-indexed like the
scan loop itself, following the spec's wording of the quoting predicate:
bytes of the ASCII range one at a time, the non-ASCII portion one code point
at a time.  The decomposition stops at an invalid encoding, which already
forces quoting by itself. -/
def scanUnitsAux : Nat → List Nat → List ScanUnit
  | _, [] => []
  | 0, _ => []
  | fuel + 1, b :: rest =>
    if b < 0x80 then .uascii b :: scanUnitsAux fuel rest
    else
      match decodeNonAscii b rest with
      | .ok r remaining => .uvalid r :: scanUnitsAux fuel remaining
      | .err => [.uinvalid]

/-- Decomposition of a byte string into scanned units. -/
def scanUnits (s : List Nat) : List ScanUnit := scanUnitsAux s.length s

/-- The spec's description of when one scanned unit forces quoting: among
printable ASCII only space, double quote and equals sign (every other
printable ASCII byte is safe, and no other ASCII byte is listed); for the
non-ASCII portion an invalid encoding, a whitespace code point, or a
non-printable code point. -/
def specUnitBad (isPrint : Nat → Bool) : ScanUnit → Bool
  | .uascii b => b == 0x20 || b == 0x22 || b == 0x3D
  | .uvalid r => isSpaceGo r || !(isPrint r)
  | .uinvalid => true

/-- The spec's quoting predicate, exactly as worded in the claim: quoting is
forced exactly when some scanned unit fails `specUnitBad`. -/
def specNeedsQuoting (isPrint : Nat → Bool) (s : List Nat) : Bool :=
  (scanUnits s).any (specUnitBad isPrint)

/-- The amended per-unit test: also treat a validly encoded replacement
character U+FFFD as quote-forcing, because the source compares the decoded
rune against `utf8.RuneError` without checking the decoded size. -/
def specUnitBadAmended (isPrint : Nat → Bool) : ScanUnit → Bool
  | .uascii b => b == 0x20 || b == 0x22 || b == 0x3D
  | .uvalid r => r == 0xFFFD || isSpaceGo r || !(isPrint r)
  | .uinvalid => true

/-- The amended quoting predicate. -/
def specNeedsQuotingAmended (isPrint : Nat → Bool) (s : List Nat) : Bool :=
  (scanUnits s).any (specUnitBadAmended isPrint)

example : needsQuotingGo (fun _ => true) (ascii "g.a") = false := by decide
example : needsQuotingGo (fun _ => true) (ascii "foo foo") = true := by decide
example : needsQuotingGo (fun _ => true) (ascii "foo=foo") = true := by decide
example : needsQuotingGo (fun _ => true) [0x6B, 0x0A] = false := by decide
example : needsQuotingGo (fun _ => true) [0xEF, 0xBF, 0xBD] = true := by decide
example : specNeedsQuoting (fun _ => true) [0xEF, 0xBF, 0xBD] = false := by decide
example : specNeedsQuotingAmended (fun _ => true) [0xEF, 0xBF, 0xBD] = true := by decide
example : needsQuotingGo (fun _ => true) [0xC3, 0xA9] = false := by decide
example : needsQuotingGo (fun _ => true) [0xC3] = true := by decide
example : needsQuotingGo (fun _ => true) [0xE2, 0x80, 0x88] = true := by decide
example : appendStringGo (fun _ => true) (ascii "x=") (ascii "bar bar") =
    ascii "x=" ++ ascii "\"bar bar\"" := by decide
example : itoa 0 = ascii "0" ∧ itoa 1 = ascii "1" ∧ itoa 255 = ascii "255" := by decide
example : intToBytes (-12) = ascii "-12" := by decide

/-! ## Data model: `slog` values, attributes, and the handler -/

mutual
/-- A resolved-or-resolvable `slog.Value`.  `vfloat` and `vdur` carry the
bytes that `strconv.AppendFloat` resp. `time.Duration.String` would render,
since those renderers are opaque to the handler; `vtime` carries an abstract
instant (`0` models the zero time); `vany` models `slog.KindAny`: the first
field is `some r` when the wrapped object exposes `encoding.TextMarshaler`
(`r = some data` on success, `r = none` when `MarshalText` fails), and the
second field carries the `fmt.Sprint` fallback text; `vresolve` models a
`slog.LogValuer` producing its payload; `vnil` is the zero `slog.Value`. -/
inductive Value where
  | vnil
  | vstr (s : List Nat)
  | vint (i : Int)
  | vuint (u : Nat)
  | vfloat (txt : List Nat)
  | vbool (b : Bool)
  | vdur (txt : List Nat)
  | vtime (t : Nat)
  | vgroup (items : AttrList)
  | vresolve (v : Value)
  | vany (tm : Option (Option (List Nat))) (txt : List Nat)

/-- An ordered list of `slog.Attr` (key plus value). -/
inductive AttrList where
  | nil
  | cons (key : List Nat) (v : Value) (rest : AttrList)
end

/-- The rewrite hook (`ReplaceAttr`): receives the current group path and a
non-group attribute (key and value), returns the replacement attribute. -/
abbrev Hook : Type := List (List Nat) → List Nat → Value → List Nat × Value

/-- One recorded invocation of the rewrite hook: the group path it was
passed, and the attribute's key and value. -/
abbrev HookCall : Type := List (List Nat) × List Nat × Value

/-- The `handler` struct of `humane.go`.  `wId` and `muId` are opaque tags
standing for the `io.Writer` and `*sync.Mutex` references (never touched by
any handler code path); `hid` is a ghost identity tag: `clone` bumps it,
modelling that `clone` allocates a fresh handler instance. -/
structure Handler where
  wId : Nat
  muId : Nat
  level : Int
  groups : List (List Nat)
  attrs : List Nat
  timeFormat : List Nat
  replaceAttr : Option Hook
  addSource : Bool
  hid : Nat

/-- Abstracted external renderers: `isPrint` stands for `unicode.IsPrint`;
`fmtTime t layout` stands for `time.Time.AppendFormat`'s output for instant
`t` under `layout`; `sprintVal` stands for the `fmt.Sprint` fallback on a
value's wrapped object (reachable only when the rewrite hook returns a
group-kind or unresolved value for the time attribute). -/
structure Env where
  isPrint : Nat → Bool
  fmtTime : Nat → List Nat → List Nat
  sprintVal : Value → List Nat

/-- A `slog.Record` as `Handle` consumes it: level, message, event-local
attributes, time instant (`0` models the zero time), and — in place of the
raw program counter — `pc = some info` when `PC ≠ 0` with `info` the
already-resolved "file:line" text (the spec treats caller-location
resolution as an external collaborator). -/
structure Record where
  level : Int
  msg : List Nat
  attrs : AttrList
  rtime : Nat
  pc : Option (List Nat)

/-- The `Options` struct: optional minimum level, optional rewrite hook,
time layout (empty means "use the default"), and the source flag. -/
structure Options where
  level : Option Int
  replaceAttr : Option Hook
  timeFormat : List Nat
  addSource : Bool

/-- Model of the `defaultTimeFormat` constant. -/
def defaultTimeFormat : List Nat := ascii "2006-01-02T03:04.05 MST"

/-- Model of `NewHandler`: fill in defaults (level Info = 0, default time
format) and start with no groups and no accumulated attributes.  `wId`,
`muId` and the ghost identity tag are supplied by the caller. -/
def newHandlerGo (wId muId hid : Nat) (opts : Option Options) : Handler :=
  let o := opts.getD ⟨none, none, [], false⟩
  { wId := wId
    muId := muId
    level := o.level.getD 0
    groups := []
    attrs := []
    timeFormat := if o.timeFormat = [] then defaultTimeFormat else o.timeFormat
    replaceAttr := o.replaceAttr
    addSource := o.addSource
    hid := hid }

/-- Model of `handler.clone`: every field is copied (`slices.Clip` keeps the
group list's elements); the ghost identity tag is bumped because the Go
code allocates a new `handler` value. -/
def clone (h : Handler) : Handler := { h with hid := h.hid + 1 }

/-- The `levelValues` table: the four standard severities mapped to their
fixed seven-byte labels. -/
def levelValues (l : Int) : Option (List Nat) :=
  if l = -4 then some (ascii "DEBUG |")
  else if l = 0 then some (ascii " INFO |")
  else if l = 4 then some (ascii " WARN |")
  else if l = 8 then some (ascii "ERROR |")
  else none

/-- Model of `slog.Level.String`: the nearest base name plus a `%+d` offset
when nonzero (`LevelDebug = -4`, `LevelWarn = 4`, `LevelError = 8`). -/
def levelString (l : Int) : List Nat :=
  let step : String → Int → List Nat := fun base d =>
    if d = 0 then ascii base
    else if d < 0 then ascii base ++ 0x2D :: itoa d.natAbs
    else ascii base ++ 0x2B :: itoa d.toNat
  if l < 0 then step "DEBUG" (l + 4)
  else if l < 4 then step "INFO" l
  else if l < 8 then step "WARN" (l - 4)
  else step "ERROR" (l - 8)

/-- Model of `appendLevel`: a fixed label from the table, otherwise a
space, the level's generic name, and a space-pipe. -/
def appendLevelGo (buf : List Nat) (l : Int) : List Nat :=
  match levelValues l with
  | some s => buf ++ s
  | none => buf ++ 0x20 :: levelString l ++ ascii " |"

/-- The key as emitted: joined onto the dotted group path when the path is
non-empty (`strings.Join(groups, ".") + "." + key`). -/
def fullKey (groups : List (List Nat)) (key : List Nat) : List Nat :=
  if groups = [] then key else joinDot groups ++ 0x2E :: key

/-- Model of `appendKey`: a leading space, the key joined onto the dotted
group path when the path is non-empty, quoted via the same predicate and
quoter as values, then the equals sign. -/
def appendKeyGo (env : Env) (groups : List (List Nat)) (buf key : List Nat) : List Nat :=
  buf ++ 0x20 ::
    (if needsQuotingGo env.isPrint (fullKey groups key) then
       goQuote env.isPrint (fullKey groups key)
     else fullKey groups key) ++ [0x3D]

/-- The empty-attribute test `a.Equal(slog.Attr{})`: empty key and the zero
value. -/
def isEmptyAttr (key : List Nat) : Value → Bool
  | .vnil => key.isEmpty
  | _ => false

/-- Model of `appendVal`: strings, durations and marshaled text go through
`appendString`; numbers and booleans are rendered bare; a time value is
formatted with the configured layout and wrapped in quotes exactly when the
layout string itself needs quoting; an `Any` value uses its text-marshaling
capability when present — appending nothing at all when marshaling fails —
and otherwise falls back to its `fmt.Sprint` text. -/
def appendValGo (env : Env) (h : Handler) (buf : List Nat) : Value → List Nat
  | .vstr s => appendStringGo env.isPrint buf s
  | .vint i => buf ++ intToBytes i
  | .vuint u => buf ++ itoa u
  | .vfloat txt => buf ++ txt
  | .vbool b => buf ++ (if b then ascii "true" else ascii "false")
  | .vdur txt => appendStringGo env.isPrint buf txt
  | .vtime t =>
    if needsQuotingGo env.isPrint h.timeFormat then
      (buf ++ [0x22]) ++ env.fmtTime t h.timeFormat ++ [0x22]
    else buf ++ env.fmtTime t h.timeFormat
  | .vgroup items => appendStringGo env.isPrint buf (env.sprintVal (.vgroup items))
  | .vresolve v => appendStringGo env.isPrint buf (env.sprintVal (.vresolve v))
  | .vany tm txt =>
    match tm with
    | some (some data) => appendStringGo env.isPrint buf data
    | some none => buf
    | none => appendStringGo env.isPrint buf txt
  | .vnil => appendStringGo env.isPrint buf (ascii "<nil>")

/-! ## The attribute flattener and the handler operations -/

/-- The leaf step of `handler.appendAttr` (the code after the group branch):
apply the rewrite hook when one is configured (journalling the call), drop
the surviving attribute if it equals the empty attribute, and otherwise
emit key and value. -/
def appendLeafGo (env : Env) (h : Handler) (buf : List Nat) (tr : List HookCall)
    (key : List Nat) (v : Value) : Handler × List Nat × List HookCall :=
  match h.replaceAttr with
  | some f =>
    let a := f h.groups key v
    let tr' := tr ++ [(h.groups, key, v)]
    if isEmptyAttr a.1 a.2 then (h, buf, tr')
    else (h, appendValGo env h (appendKeyGo env h.groups buf a.1) a.2, tr')
  | none =>
    if isEmptyAttr key v then (h, buf, tr)
    else (h, appendValGo env h (appendKeyGo env h.groups buf key) v, tr)

mutual
/-- Model of `handler.appendAttr`, threading the handler (whose `groups`
field the Go method mutates and restores around group children), the byte
buffer, and a ghost journal of rewrite-hook invocations.  The value is
resolved first (`vresolve` unwrapping); a group value contributes nothing
when its child list is empty, and otherwise pushes its (non-empty) key onto
the group path around its children; a leaf is passed to the rewrite hook
when one is configured, dropped if the surviving attribute equals the empty
attribute, and otherwise emitted as key plus value. -/
def appendAttrGo (env : Env) (h : Handler) (buf : List Nat) (tr : List HookCall)
    (key : List Nat) :
    Value → Handler × List Nat × List HookCall
  | .vresolve v => appendAttrGo env h buf tr key v
  | .vgroup .nil => (h, buf, tr)
  | .vgroup (.cons k0 v0 rest) =>
    let h1 := if key = [] then h else { h with groups := h.groups ++ [key] }
    let r1 := appendAttrsGo env h1 buf tr (.cons k0 v0 rest)
    (if key = [] then r1.1 else { r1.1 with groups := r1.1.groups.dropLast }, r1.2)
  | v => appendLeafGo env h buf tr key v

/-- `appendAttr` folded over an attribute list in order, threading the
handler state, the buffer and the hook journal. -/
def appendAttrsGo (env : Env) (h : Handler) (buf : List Nat) (tr : List HookCall) :
    AttrList → Handler × List Nat × List HookCall
  | .nil => (h, buf, tr)
  | .cons k v rest =>
    let r1 := appendAttrGo env h buf tr k v
    appendAttrsGo env r1.1 r1.2.1 r1.2.2 rest
end

/-- Model of `handler.WithAttrs`: an empty batch returns the receiver
itself; otherwise a clone whose accumulated `attrs` text is extended by
rendering the batch now (hook applications included, hence the journal). -/
def withAttrsGo (env : Env) (h : Handler) : AttrList → Handler × List HookCall
  | .nil => (h, [])
  | as =>
    let h2 := clone h
    let r := appendAttrsGo env h2 [] [] as
    ({ r.1 with attrs := r.1.attrs ++ r.2.1 }, r.2.2)

/-- Model of `handler.WithGroup`: an empty name returns the receiver
itself; otherwise a clone with the name appended to the group path. -/
def withGroupGo (h : Handler) (name : List Nat) : Handler :=
  if name = [] then h
  else
    let h2 := clone h
    { h2 with groups := h2.groups ++ [name] }

/-- Model of `handler.Handle`: level label, space, message, space-pipe, the
pre-rendered derivation attributes, the event-local attributes, an optional
source attribute, then the time pseudo-attribute — built, hook applied with
a `nil` group path, and emitted with a bare key unless the record's time is
the zero time or the hook erased it — and a final newline.  Returns the
final handler state, the line, and the hook journal. -/
def handleGo (env : Env) (h : Handler) (r : Record) : Handler × List Nat × List HookCall :=
  let buf := appendLevelGo [] r.level
  let buf := buf ++ 0x20 :: r.msg ++ ascii " |"
  let buf := if h.attrs = [] then buf else buf ++ h.attrs
  let s1 := appendAttrsGo env h buf [] r.attrs
  let s2 :=
    if h.addSource then
      match r.pc with
      | some info => appendAttrGo env s1.1 s1.2.1 s1.2.2 (ascii "source") (.vstr info)
      | none => s1
    else s1
  let t0k := ascii "time"
  let t0v := Value.vtime r.rtime
  let ta := match s2.1.replaceAttr with
    | some f => (f [] t0k t0v, s2.2.2 ++ [([], t0k, t0v)])
    | none => ((t0k, t0v), s2.2.2)
  let buf :=
    if r.rtime != 0 && !(isEmptyAttr ta.1.1 ta.1.2) then
      appendValGo env s2.1 (appendKeyGo env [] s2.2.1 ta.1.1) ta.1.2
    else s2.2.1
  (s2.1, buf ++ [0x0A], ta.2)

/-- The write step of `Handle`: the only error the method can return is the
underlying writer's, verbatim (`write` abstracts `h.w.Write`). -/
def handleErrGo {E : Type} (env : Env) (h : Handler) (r : Record)
    (write : List Nat → Option E) : Option E :=
  write (handleGo env h r).2.1

mutual
/-- The hook invocations the spec's flattening algorithm prescribes for one
attribute under a group path: none inside an empty group; children of a
non-empty group under the path extended by the group's non-empty key; one
call per leaf, carrying the path without the leaf's own key. -/
def leafCallsV (gs : List (List Nat)) (key : List Nat) : Value → List HookCall
  | .vresolve v => leafCallsV gs key v
  | .vgroup .nil => []
  | .vgroup (.cons k0 v0 rest) =>
    leafCallsL (if key = [] then gs else gs ++ [key]) (.cons k0 v0 rest)
  | v => [(gs, key, v)]

/-- The hook invocations prescribed for an attribute list, in order. -/
def leafCallsL (gs : List (List Nat)) : AttrList → List HookCall
  | .nil => []
  | .cons k v rest => leafCallsV gs k v ++ leafCallsL gs rest
end

/-- A rewrite hook that erases the time pseudo-attribute (returns the empty
attribute for the reserved time key) and keeps every other attribute, as the
repository's own tests configure. -/
def removeTimeHook : Hook := fun _ key v =>
  if key = ascii "time" then ([], .vnil) else (key, v)

/-- A concrete environment for closed evaluations: every code point counts
as printable (true of all code points appearing in the concrete inputs
used), and time formatting echoes the layout string. -/
def env0 : Env :=
  { isPrint := fun _ => true, fmtTime := fun _ layout => layout, sprintVal := fun _ => [] }

/-- The root handler of the C1 scenario: default options plus the
time-removing rewrite hook. -/
def hRootC1 : Handler := newHandlerGo 0 0 0 (some ⟨none, some removeTimeHook, [], false⟩)

/-- The C1 derivation chain
`WithGroup "g" → WithAttrs [a=1] → WithGroup "h" → WithAttrs [b=2]`. -/
def hC1 : Handler :=
  let h1 := withGroupGo hRootC1 (ascii "g")
  let h2 := (withAttrsGo env0 h1 (.cons (ascii "a") (.vint 1) .nil)).1
  let h3 := withGroupGo h2 (ascii "h")
  (withAttrsGo env0 h3 (.cons (ascii "b") (.vint 2) .nil)).1

example :
    (handleGo env0 hC1 ⟨0, ascii "message", .nil, 17, none⟩).2.1 =
      ascii " INFO | message | g.a=1 g.h.b=2\n" := by decide

example : hC1.attrs = ascii " g.a=1 g.h.b=2" := by decide

example :
    (handleGo env0 (newHandlerGo 0 0 0 (some ⟨none, none, [], false⟩))
        ⟨0, ascii "msg",
          .cons (ascii "k") (.vany (some none) []) (.cons (ascii "x") (.vstr (ascii "1")) .nil),
          0, none⟩).2.1 =
      ascii " INFO | msg | k= x=1\n" := by decide

example : appendLevelGo [] 2 = ascii " INFO+2 |" := by decide
example : appendLevelGo [] (-8) = ascii " DEBUG-4 |" := by decide
example : appendLevelGo [] (-4) = ascii "DEBUG |" := by decide

/-! ## Helper lemmas -/

/-- Dropping the last element of `l ++ [a]` gives back `l`. -/
theorem dropLast_append_single {α : Type} (l : List α) (a : α) :
    (l ++ [a]).dropLast = l := by
  simp

/-- The decimal rendering of a natural number is never empty. -/
theorem itoa_length_pos (n : Nat) : 1 ≤ (itoa n).length := by
  unfold itoa itoaAux
  split <;> simp

/-- A string of ASCII bytes that avoids space, double quote and equals sign
never needs quoting, whatever printability oracle is used. -/
theorem needsQuoting_allSafe (isPrint : Nat → Bool) :
    ∀ s : List Nat, (∀ b ∈ s, b < 0x80 ∧ forceQuoteByte b = false) →
      needsQuotingGo isPrint s = false
  | [], _ => rfl
  | b :: rest, hs => by
    have hb := hs b (List.mem_cons_self b rest)
    have hrest := needsQuoting_allSafe isPrint rest (fun x hx => hs x (List.mem_cons_of_mem b hx))
    unfold needsQuotingGo at hrest ⊢
    simp only [List.length_cons, needsQuotingAux, if_pos hb.1, hb.2, hrest, Bool.or_self]

/-- Under the same safety condition, `appendString` copies the string
verbatim. -/
theorem appendString_allSafe (isPrint : Nat → Bool) (buf s : List Nat)
    (hs : ∀ b ∈ s, b < 0x80 ∧ forceQuoteByte b = false) :
    appendStringGo isPrint buf s = buf ++ s := by
  unfold appendStringGo
  rw [needsQuoting_allSafe isPrint s hs]
  simp

/-- The leaf step never changes the handler. -/
theorem appendLeafGo_fst (env : Env) (h : Handler) (buf : List Nat)
    (tr : List HookCall) (key : List Nat) (v : Value) :
    (appendLeafGo env h buf tr key v).1 = h := by
  unfold appendLeafGo
  cases hra : h.replaceAttr <;> simp only [hra] <;> split <;> rfl

mutual
/-- `appendAttr` restores the handler it was given: every group-name push
is matched by a pop, and no other field is ever assigned. -/
theorem appendAttrGo_handler (env : Env) (h : Handler) (buf : List Nat)
    (tr : List HookCall) (key : List Nat) :
    ∀ v : Value, (appendAttrGo env h buf tr key v).1 = h
  | .vresolve v => by
    simpa only [appendAttrGo] using appendAttrGo_handler env h buf tr key v
  | .vgroup .nil => by simp [appendAttrGo]
  | .vgroup (.cons k0 v0 rest) => by
    by_cases hk : key = []
    · have hL := appendAttrsGo_handler env h buf tr (.cons k0 v0 rest)
      simp only [appendAttrGo, hk, if_pos rfl]
      simpa using hL
    · have hL := appendAttrsGo_handler env { h with groups := h.groups ++ [key] } buf tr
        (.cons k0 v0 rest)
      simp only [appendAttrGo, if_neg hk]
      rw [hL]
      simp
  | .vnil => appendLeafGo_fst env h buf tr key .vnil
  | .vstr s => appendLeafGo_fst env h buf tr key (.vstr s)
  | .vint i => appendLeafGo_fst env h buf tr key (.vint i)
  | .vuint u => appendLeafGo_fst env h buf tr key (.vuint u)
  | .vfloat txt => appendLeafGo_fst env h buf tr key (.vfloat txt)
  | .vbool b => appendLeafGo_fst env h buf tr key (.vbool b)
  | .vdur txt => appendLeafGo_fst env h buf tr key (.vdur txt)
  | .vtime t => appendLeafGo_fst env h buf tr key (.vtime t)
  | .vany tm txt => appendLeafGo_fst env h buf tr key (.vany tm txt)

/-- `appendAttr` folded over a list restores the handler it was given. -/
theorem appendAttrsGo_handler (env : Env) (h : Handler) (buf : List Nat)
    (tr : List HookCall) :
    ∀ as : AttrList, (appendAttrsGo env h buf tr as).1 = h
  | .nil => by simp [appendAttrsGo]
  | .cons k v rest => by
    have h1 := appendAttrGo_handler env h buf tr k v
    have h2 := appendAttrsGo_handler env (appendAttrGo env h buf tr k v).1
      (appendAttrGo env h buf tr k v).2.1 (appendAttrGo env h buf tr k v).2.2 rest
    simp only [appendAttrsGo]
    rw [h2, h1]
end

/-- With a rewrite hook installed, the leaf step journals exactly one call,
carrying the current group path and the leaf attribute. -/
theorem appendLeafGo_trace (env : Env) (h : Handler) (buf : List Nat)
    (tr : List HookCall) (key : List Nat) (v : Value) (f : Hook)
    (hf : h.replaceAttr = some f) :
    (appendLeafGo env h buf tr key v).2.2 = tr ++ [(h.groups, key, v)] := by
  unfold appendLeafGo
  simp only [hf]
  split <;> rfl

mutual
/-- With a rewrite hook installed, `appendAttr`'s hook journal grows by
exactly the calls the spec's flattening algorithm prescribes for the
attribute. -/
theorem appendAttrGo_trace (env : Env) (h : Handler) (buf : List Nat)
    (tr : List HookCall) (key : List Nat) (f : Hook) (hf : h.replaceAttr = some f) :
    ∀ v : Value, (appendAttrGo env h buf tr key v).2.2 = tr ++ leafCallsV h.groups key v
  | .vresolve v => by
    simpa only [appendAttrGo, leafCallsV] using appendAttrGo_trace env h buf tr key f hf v
  | .vgroup .nil => by simp [appendAttrGo, leafCallsV]
  | .vgroup (.cons k0 v0 rest) => by
    by_cases hk : key = []
    · have hL := appendAttrsGo_trace env h buf tr f hf (.cons k0 v0 rest)
      simp only [appendAttrGo, leafCallsV, hk, if_pos rfl]
      exact hL
    · have hL := appendAttrsGo_trace env { h with groups := h.groups ++ [key] } buf tr f hf
        (.cons k0 v0 rest)
      simp only [appendAttrGo, leafCallsV, if_neg hk]
      exact hL
  | .vnil => by
    simpa only [appendAttrGo, leafCallsV] using appendLeafGo_trace env h buf tr key .vnil f hf
  | .vstr s => by
    simpa only [appendAttrGo, leafCallsV] using
      appendLeafGo_trace env h buf tr key (.vstr s) f hf
  | .vint i => by
    simpa only [appendAttrGo, leafCallsV] using
      appendLeafGo_trace env h buf tr key (.vint i) f hf
  | .vuint u => by
    simpa only [appendAttrGo, leafCallsV] using
      appendLeafGo_trace env h buf tr key (.vuint u) f hf
  | .vfloat txt => by
    simpa only [appendAttrGo, leafCallsV] using
      appendLeafGo_trace env h buf tr key (.vfloat txt) f hf
  | .vbool b => by
    simpa only [appendAttrGo, leafCallsV] using
      appendLeafGo_trace env h buf tr key (.vbool b) f hf
  | .vdur txt => by
    simpa only [appendAttrGo, leafCallsV] using
      appendLeafGo_trace env h buf tr key (.vdur txt) f hf
  | .vtime t => by
    simpa only [appendAttrGo, leafCallsV] using
      appendLeafGo_trace env h buf tr key (.vtime t) f hf
  | .vany tm txt => by
    simpa only [appendAttrGo, leafCallsV] using
      appendLeafGo_trace env h buf tr key (.vany tm txt) f hf

/-- With a rewrite hook installed, the fold over an attribute list journals
exactly the prescribed calls, in order. -/
theorem appendAttrsGo_trace (env : Env) (h : Handler) (buf : List Nat)
    (tr : List HookCall) (f : Hook) (hf : h.replaceAttr = some f) :
    ∀ as : AttrList, (appendAttrsGo env h buf tr as).2.2 = tr ++ leafCallsL h.groups as
  | .nil => by simp [appendAttrsGo, leafCallsL]
  | .cons k v rest => by
    have h1 := appendAttrGo_handler env h buf tr k v
    have ht1 := appendAttrGo_trace env h buf tr k f hf v
    have ht2 := appendAttrsGo_trace env (appendAttrGo env h buf tr k v).1
      (appendAttrGo env h buf tr k v).2.1 (appendAttrGo env h buf tr k v).2.2 f
      (by rw [h1]; exact hf) rest
    simp only [appendAttrsGo, leafCallsL]
    rw [ht2, ht1, h1, List.append_assoc]
end

/-- `appendString` appends to the front buffer: quoted form when the
predicate fires, the raw string otherwise. -/
theorem appendStringGo_eq (isPrint : Nat → Bool) (buf s : List Nat) :
    appendStringGo isPrint buf s =
      buf ++ (if needsQuotingGo isPrint s then goQuote isPrint s else s) := by
  unfold appendStringGo
  split <;> simp_all

/-- `appendVal` only appends bytes after the buffer it receives. -/
theorem appendValGo_mono (env : Env) (h : Handler) (buf : List Nat) (v : Value) :
    ∃ ext, appendValGo env h buf v = buf ++ ext := by
  cases v with
  | vnil => exact ⟨_, appendStringGo_eq env.isPrint buf (ascii "<nil>")⟩
  | vstr s => exact ⟨_, appendStringGo_eq env.isPrint buf s⟩
  | vint i => exact ⟨_, rfl⟩
  | vuint u => exact ⟨_, rfl⟩
  | vfloat txt => exact ⟨_, rfl⟩
  | vbool b => exact ⟨_, rfl⟩
  | vdur txt => exact ⟨_, appendStringGo_eq env.isPrint buf txt⟩
  | vtime t =>
    by_cases hq : needsQuotingGo env.isPrint h.timeFormat = true
    · exact ⟨0x22 :: env.fmtTime t h.timeFormat ++ [0x22], by simp [appendValGo, hq]⟩
    · exact ⟨env.fmtTime t h.timeFormat, by simp [appendValGo, hq]⟩
  | vgroup items => exact ⟨_, appendStringGo_eq env.isPrint buf _⟩
  | vresolve w => exact ⟨_, appendStringGo_eq env.isPrint buf _⟩
  | vany tm txt =>
    cases tm with
    | none => exact ⟨_, appendStringGo_eq env.isPrint buf txt⟩
    | some o =>
      cases o with
      | none => exact ⟨[], by simp [appendValGo]⟩
      | some data => exact ⟨_, appendStringGo_eq env.isPrint buf data⟩

/-- `appendKey` only appends bytes after the buffer it receives. -/
theorem appendKeyGo_mono (env : Env) (gs : List (List Nat)) (buf key : List Nat) :
    ∃ ext, appendKeyGo env gs buf key = buf ++ ext := by
  unfold appendKeyGo
  exact ⟨_, List.append_assoc _ _ _⟩

/-- Chaining two buffer extensions. -/
theorem extendChain {α : Type} {a b c : List α} (h1 : ∃ e, b = a ++ e)
    (h2 : ∃ e, c = b ++ e) : ∃ e, c = a ++ e := by
  obtain ⟨e1, rfl⟩ := h1
  obtain ⟨e2, rfl⟩ := h2
  exact ⟨e1 ++ e2, by rw [List.append_assoc]⟩

/-- The leaf step only appends bytes after the buffer it receives. -/
theorem appendLeafGo_mono (env : Env) (h : Handler) (buf : List Nat)
    (tr : List HookCall) (key : List Nat) (v : Value) :
    ∃ ext, (appendLeafGo env h buf tr key v).2.1 = buf ++ ext := by
  unfold appendLeafGo
  cases hra : h.replaceAttr with
  | some f =>
    simp only [hra]
    split
    · exact ⟨[], by simp⟩
    · exact extendChain (appendKeyGo_mono env h.groups buf (f h.groups key v).1)
        (appendValGo_mono env h (appendKeyGo env h.groups buf (f h.groups key v).1)
          (f h.groups key v).2)
  | none =>
    simp only [hra]
    split
    · exact ⟨[], by simp⟩
    · exact extendChain (appendKeyGo_mono env h.groups buf key)
        (appendValGo_mono env h (appendKeyGo env h.groups buf key) v)

mutual
/-- `appendAttr` only appends bytes after the buffer it receives. -/
theorem appendAttrGo_mono (env : Env) (h : Handler) (buf : List Nat)
    (tr : List HookCall) (key : List Nat) :
    ∀ v : Value, ∃ ext, (appendAttrGo env h buf tr key v).2.1 = buf ++ ext
  | .vresolve v => by
    simpa only [appendAttrGo] using appendAttrGo_mono env h buf tr key v
  | .vgroup .nil => ⟨[], by simp [appendAttrGo]⟩
  | .vgroup (.cons k0 v0 rest) => by
    obtain ⟨ext, he⟩ := appendAttrsGo_mono env
      (if key = [] then h else { h with groups := h.groups ++ [key] }) buf tr
      (.cons k0 v0 rest)
    exact ⟨ext, by simp only [appendAttrGo]; exact he⟩
  | .vnil => by
    simpa only [appendAttrGo] using appendLeafGo_mono env h buf tr key .vnil
  | .vstr s => by
    simpa only [appendAttrGo] using appendLeafGo_mono env h buf tr key (.vstr s)
  | .vint i => by
    simpa only [appendAttrGo] using appendLeafGo_mono env h buf tr key (.vint i)
  | .vuint u => by
    simpa only [appendAttrGo] using appendLeafGo_mono env h buf tr key (.vuint u)
  | .vfloat txt => by
    simpa only [appendAttrGo] using appendLeafGo_mono env h buf tr key (.vfloat txt)
  | .vbool b => by
    simpa only [appendAttrGo] using appendLeafGo_mono env h buf tr key (.vbool b)
  | .vdur txt => by
    simpa only [appendAttrGo] using appendLeafGo_mono env h buf tr key (.vdur txt)
  | .vtime t => by
    simpa only [appendAttrGo] using appendLeafGo_mono env h buf tr key (.vtime t)
  | .vany tm txt => by
    simpa only [appendAttrGo] using appendLeafGo_mono env h buf tr key (.vany tm txt)

/-- The fold over an attribute list only appends bytes after the buffer it
receives. -/
theorem appendAttrsGo_mono (env : Env) (h : Handler) (buf : List Nat)
    (tr : List HookCall) :
    ∀ as : AttrList, ∃ ext, (appendAttrsGo env h buf tr as).2.1 = buf ++ ext
  | .nil => ⟨[], by simp [appendAttrsGo]⟩
  | .cons k v rest => by
    obtain ⟨e1, he1⟩ := appendAttrGo_mono env h buf tr k v
    obtain ⟨e2, he2⟩ := appendAttrsGo_mono env (appendAttrGo env h buf tr k v).1
      (appendAttrGo env h buf tr k v).2.1 (appendAttrGo env h buf tr k v).2.2 rest
    exact ⟨e1 ++ e2, by
      simp only [appendAttrsGo]
      rw [he2, he1, List.append_assoc]⟩
end

/-- The spec's (amended) per-unit scan agrees with the source's fused scan
loop, fuel for fuel. -/
theorem needsQuotingAux_eq_spec (isPrint : Nat → Bool) :
    ∀ fuel s, needsQuotingAux isPrint fuel s =
      (scanUnitsAux fuel s).any (specUnitBadAmended isPrint)
  | fuel, [] => by cases fuel <;> rfl
  | 0, _ :: _ => rfl
  | fuel + 1, b :: rest => by
    by_cases hb : b < 0x80
    · simp only [needsQuotingAux, scanUnitsAux, if_pos hb, List.any_cons,
        needsQuotingAux_eq_spec isPrint fuel rest]
      rfl
    · cases hd : decodeNonAscii b rest with
      | ok r remaining =>
        simp only [needsQuotingAux, scanUnitsAux, if_neg hb, hd, List.any_cons,
          needsQuotingAux_eq_spec isPrint fuel remaining]
        rfl
      | err =>
        simp only [needsQuotingAux, scanUnitsAux, if_neg hb, hd]
        rfl

/-- The source's quoting predicate equals the spec's predicate amended to
also flag a validly encoded U+FFFD. -/
theorem needsQuoting_eq_specAmended (isPrint : Nat → Bool) (s : List Nat) :
    needsQuotingGo isPrint s = specNeedsQuotingAmended isPrint s :=
  needsQuotingAux_eq_spec isPrint s.length s

/-- With a rewrite hook installed, one `Handle` call invokes the hook on
exactly: every event-local leaf (in flattening order, under the handler's
group path), then — when the source flag is enabled and the record carries a
caller location — the source pseudo-attribute under the handler's group
path, then the time pseudo-attribute under the empty group path. -/
theorem handleGo_trace (env : Env) (h : Handler) (r : Record) (f : Hook)
    (hf : h.replaceAttr = some f) :
    (handleGo env h r).2.2 =
      leafCallsL h.groups r.attrs ++
        (if h.addSource then
           (match r.pc with
            | some info => [(h.groups, ascii "source", Value.vstr info)]
            | none => [])
         else []) ++ [([], ascii "time", Value.vtime r.rtime)] := by
  by_cases hsrc : h.addSource = true
  · cases hpc : r.pc with
    | some info =>
      simp only [handleGo, hsrc, hpc, if_true]
      rw [appendAttrGo_handler, appendAttrsGo_handler, hf]
      simp only
      rw [appendAttrGo_trace env _ _ _ _ f hf, appendAttrsGo_trace env h _ _ f hf]
      simp [leafCallsV, List.append_assoc]
    | none =>
      simp only [handleGo, hsrc, hpc, if_true]
      rw [appendAttrsGo_handler, hf]
      simp only
      rw [appendAttrsGo_trace env h _ _ f hf]
      simp [List.append_assoc]
  · have hsrc' : h.addSource = false := by
      cases hx : h.addSource
      · rfl
      · exact absurd hx hsrc
    simp only [handleGo, hsrc', Bool.false_eq_true, if_false]
    rw [appendAttrsGo_handler, hf]
    simp only
    rw [appendAttrsGo_trace env h _ _ f hf]
    simp [List.append_assoc]

/-- Extension through a conditional: if both branches extend `a`, so does
the conditional. -/
theorem extendIte {α : Type} {c : Prop} [Decidable c] {a x y : List α}
    (hx : ∃ e, x = a ++ e) (hy : ∃ e, y = a ++ e) :
    ∃ e, (if c then x else y) = a ++ e := by
  split
  · exact hx
  · exact hy

/-- Every `Handle` line starts with the level label, a space, the message
verbatim, and the section pipe — whatever the hook, derivation state and
record contents are. -/
theorem handleGo_prefix (env : Env) (h : Handler) (r : Record) :
    ∃ tail, (handleGo env h r).2.1 =
      (appendLevelGo [] r.level ++ 0x20 :: r.msg ++ ascii " |") ++ tail := by
  have hA : ∃ e, (if h.attrs = [] then
        appendLevelGo [] r.level ++ 0x20 :: r.msg ++ ascii " |"
      else appendLevelGo [] r.level ++ 0x20 :: r.msg ++ ascii " |" ++ h.attrs) =
      (appendLevelGo [] r.level ++ 0x20 :: r.msg ++ ascii " |") ++ e := by
    split
    · exact ⟨[], by simp⟩
    · exact ⟨h.attrs, rfl⟩
  unfold handleGo
  by_cases hsrc : h.addSource = true
  · cases hpc : r.pc with
    | some info =>
      simp only [hsrc, hpc, if_true]
      exact extendChain hA (extendChain (appendAttrsGo_mono env h _ [] r.attrs)
        (extendChain (appendAttrGo_mono env _ _ _ (ascii "source") (.vstr info))
          (extendChain
            (extendIte
              (extendChain (appendKeyGo_mono env [] _ _) (appendValGo_mono env _ _ _))
              ⟨[], (List.append_nil _).symm⟩)
            ⟨[0x0A], rfl⟩)))
    | none =>
      simp only [hsrc, hpc, if_true]
      exact extendChain hA (extendChain (appendAttrsGo_mono env h _ [] r.attrs)
        (extendChain
          (extendIte
            (extendChain (appendKeyGo_mono env [] _ _) (appendValGo_mono env _ _ _))
            ⟨[], (List.append_nil _).symm⟩)
          ⟨[0x0A], rfl⟩))
  · have hsrc' : h.addSource = false := by
      cases hx : h.addSource
      · rfl
      · exact absurd hx hsrc
    simp only [hsrc', Bool.false_eq_true, if_false]
    exact extendChain hA (extendChain (appendAttrsGo_mono env h _ [] r.attrs)
      (extendChain
        (extendIte
          (extendChain (appendKeyGo_mono env [] _ _) (appendValGo_mono env _ _ _))
          ⟨[], (List.append_nil _).symm⟩)
        ⟨[0x0A], rfl⟩))

/-! ## Claim theorems -/

/-- C7: `Handle` is read-only with respect to the handler's shared
derivation state: the returned (threaded) handler equals the one passed in
— all fields, `groups` included, so every group push performed while
flattening nested group values was matched by a pop. -/
theorem handle_readonly_state (env : Env) (h : Handler) (r : Record) :
    (handleGo env h r).1 = h := by
  unfold handleGo
  by_cases hsrc : h.addSource = true
  · cases hpc : r.pc with
    | some info =>
      simp only [hsrc, hpc, if_true]
      rw [appendAttrGo_handler, appendAttrsGo_handler]
    | none =>
      simp only [hsrc, hpc, if_true]
      rw [appendAttrsGo_handler]
  · have hsrc' : h.addSource = false := by
      cases hx : h.addSource
      · rfl
      · exact absurd hx hsrc
    simp only [hsrc', Bool.false_eq_true, if_false]
    rw [appendAttrsGo_handler]

/-- C1: the handler built by `WithGroup "g"`, `WithAttrs [a=1]`,
`WithGroup "h"`, `WithAttrs [b=2]` accumulates exactly the attribute text
` g.a=1 g.h.b=2` — each group prefixes only the attributes added at or
after its step — and handling a record with message `message`, no
event-local attributes, and the time attribute removed by the hook yields
exactly ` INFO | message | g.a=1 g.h.b=2` plus newline. -/
theorem groupPath_follows_call_order :
    hC1.attrs = ascii " g.a=1 g.h.b=2" ∧
    (handleGo env0 hC1 ⟨0, ascii "message", .nil, 17, none⟩).2.1 =
      ascii " INFO | message | g.a=1 g.h.b=2\n" := by
  decide

/-- C2 counterexample: an attribute whose `Any` value exposes a failing
text-marshaling capability is not dropped whole — its key IS emitted,
followed by `=` with an empty value (the line contains ` k=`), refuting
"neither its key nor its value appears". -/
theorem marshal_failure_key_emitted_cex :
    (handleGo env0 (newHandlerGo 0 0 0 (some ⟨none, none, [], false⟩))
        ⟨0, ascii "msg",
          .cons (ascii "k") (.vany (some none) [])
            (.cons (ascii "x") (.vstr (ascii "1")) .nil),
          0, none⟩).2.1 =
      ascii " INFO | msg | k= x=1\n" ∧
    ∃ pre suf,
      (handleGo env0 (newHandlerGo 0 0 0 (some ⟨none, none, [], false⟩))
        ⟨0, ascii "msg",
          .cons (ascii "k") (.vany (some none) [])
            (.cons (ascii "x") (.vstr (ascii "1")) .nil),
          0, none⟩).2.1 = pre ++ ascii " k=" ++ suf := by
  exact ⟨by decide, ascii " INFO | msg |", ascii " x=1\n", by decide⟩

/-- C2 amended: when the text-marshaling call fails, only the value is
dropped silently — the key is still emitted, followed by `=` with an empty
value, the rest of the line is produced, and the only error `Handle` can
surface is the underlying writer's, unchanged by the marshaling failure. -/
theorem marshal_failure_drops_value_only (env : Env) (w mu : Nat) (lvl : Int)
    (gs : List (List Nat)) (atr tf : List Nat) (src : Bool) (hid : Nat)
    (buf : List Nat) (tr : List HookCall) (key txt : List Nat)
    {E : Type} (r : Record) (write : List Nat → Option E) :
    appendAttrGo env ⟨w, mu, lvl, gs, atr, tf, none, src, hid⟩ buf tr key
        (.vany (some none) txt) =
      (⟨w, mu, lvl, gs, atr, tf, none, src, hid⟩, appendKeyGo env gs buf key, tr) ∧
    handleErrGo env ⟨w, mu, lvl, gs, atr, tf, none, src, hid⟩ r write =
      write (handleGo env ⟨w, mu, lvl, gs, atr, tf, none, src, hid⟩ r).2.1 :=
  ⟨rfl, rfl⟩

/-- C3 counterexample: the label of the out-of-table level `2` is
` INFO+2 |` — nine bytes, not the seven-byte column width of the fixed
labels, and led by a space rather than right-padded — so columns do not
align, refuting "right-padded to the same column width". -/
theorem levelLabel_width_cex :
    appendLevelGo [] 2 = ascii " INFO+2 |" ∧
    appendLevelGo [] 0 = ascii " INFO |" ∧
    (appendLevelGo [] 2).length = 9 ∧
    (appendLevelGo [] 0).length = 7 := by
  decide

/-- C3 amended: a level outside the fixed table renders as a single space,
the level's generic name, then ` |`; the label's width is the name's width
plus three — at least nine bytes, so always wider than the fixed labels'
seven, and columns do not align for out-of-table levels. -/
theorem levelLabel_out_of_table (buf : List Nat) (l : Int)
    (hl : l ≠ -4 ∧ l ≠ 0 ∧ l ≠ 4 ∧ l ≠ 8) :
    appendLevelGo buf l = buf ++ 0x20 :: levelString l ++ ascii " |" ∧
    (0x20 :: levelString l ++ ascii " |").length = (levelString l).length + 3 ∧
    9 ≤ (0x20 :: levelString l ++ ascii " |").length := by
  obtain ⟨hd, hi, hw, he⟩ := hl
  have hnone : levelValues l = none := by
    unfold levelValues
    split_ifs <;> first | rfl | omega
  have hD : (ascii "DEBUG").length = 5 := by decide
  have hI : (ascii "INFO").length = 4 := by decide
  have hW : (ascii "WARN").length = 4 := by decide
  have hE : (ascii "ERROR").length = 5 := by decide
  have hP : (ascii " |").length = 2 := by decide
  have hstep : 6 ≤ (levelString l).length := by
    have i1 := itoa_length_pos (l + 4).natAbs
    have i2 := itoa_length_pos (l + 4).toNat
    have i3 := itoa_length_pos l.natAbs
    have i4 := itoa_length_pos l.toNat
    have i5 := itoa_length_pos (l - 4).natAbs
    have i6 := itoa_length_pos (l - 4).toNat
    have i7 := itoa_length_pos (l - 8).natAbs
    have i8 := itoa_length_pos (l - 8).toNat
    unfold levelString
    dsimp only
    split_ifs <;> simp_all [List.length_append, List.length_cons] <;> omega
  refine ⟨by unfold appendLevelGo; rw [hnone], ?_, ?_⟩
  · simp [List.length_cons, List.length_append, hP]
  · simp only [List.length_cons, List.length_append, hP]
    omega

/-- C3 witness: the amended statement applied at the concrete out-of-table
level `2`. -/
theorem levelLabel_out_of_table_witness :
    appendLevelGo [] 2 = [] ++ 0x20 :: levelString 2 ++ ascii " |" ∧
    (0x20 :: levelString 2 ++ ascii " |").length = (levelString 2).length + 3 ∧
    9 ≤ (0x20 :: levelString 2 ++ ascii " |").length :=
  levelLabel_out_of_table [] 2 (by decide)

/-- C4 counterexample: the byte string `EF BF BD` is the valid UTF-8
encoding of U+FFFD, a printable (Go's `unicode.IsPrint` returns true for
it, as the constant-true oracle used here does), non-whitespace code point
with no quote-forcing ASCII byte — yet the source's predicate quotes it,
while the predicate exactly as the claim words it does not. -/
theorem quoting_predicate_fffd_cex :
    needsQuotingGo (fun _ => true) [0xEF, 0xBF, 0xBD] = true ∧
    specNeedsQuoting (fun _ => true) [0xEF, 0xBF, 0xBD] = false := by
  decide

/-- C4 amended: the source's quoting predicate is the claim's predicate
amended to also flag a validly encoded replacement character U+FFFD (the
scan compares the decoded rune against the error rune without checking the
decoded size); the predicate gates `appendString` — quoted with Go's
standard escaping when it fires, verbatim otherwise — and `appendKey`
applies the identical predicate and quoter to the (path-joined) key. -/
theorem quoting_predicate_matches_amended_spec (isPrint : Nat → Bool)
    (fmtT : Nat → List Nat → List Nat) (spr : Value → List Nat)
    (s buf key : List Nat) (groups : List (List Nat)) :
    needsQuotingGo isPrint s = specNeedsQuotingAmended isPrint s ∧
    appendStringGo isPrint buf s =
      buf ++ (if needsQuotingGo isPrint s then goQuote isPrint s else s) ∧
    appendKeyGo ⟨isPrint, fmtT, spr⟩ groups buf key =
      buf ++ 0x20 ::
        (if needsQuotingGo isPrint (fullKey groups key) then
           goQuote isPrint (fullKey groups key)
         else fullKey groups key) ++ [0x3D] :=
  ⟨needsQuoting_eq_specAmended isPrint s, appendStringGo_eq isPrint buf s, rfl⟩

/-- C5: with a rewrite hook installed, one `Handle` call applies the hook
to exactly the flattened event-local leaves, then (when the source flag is
on and a caller location is present) the source pseudo-attribute, then the
time pseudo-attribute — and a derivation step applies it to every attribute
it records — while the line always opens with the level label and the raw
message, which the hook never touches. -/
theorem hook_applied_to_all_but_level_and_message (env : Env) (f : Hook)
    (w mu : Nat) (lvl : Int) (gs : List (List Nat)) (atr tf : List Nat)
    (src : Bool) (hid : Nat) (r : Record) :
    (handleGo env ⟨w, mu, lvl, gs, atr, tf, some f, src, hid⟩ r).2.2 =
      leafCallsL gs r.attrs ++
        (if src then
           (match r.pc with
            | some info => [(gs, ascii "source", Value.vstr info)]
            | none => [])
         else []) ++ [([], ascii "time", Value.vtime r.rtime)] ∧
    (∀ as : AttrList,
      (withAttrsGo env ⟨w, mu, lvl, gs, atr, tf, some f, src, hid⟩ as).2 =
        leafCallsL gs as) ∧
    ∃ tail, (handleGo env ⟨w, mu, lvl, gs, atr, tf, some f, src, hid⟩ r).2.1 =
      (appendLevelGo [] r.level ++ 0x20 :: r.msg ++ ascii " |") ++ tail := by
  refine ⟨handleGo_trace env _ r f rfl, ?_, handleGo_prefix env _ r⟩
  intro as
  cases as with
  | nil => rfl
  | cons k v rest =>
    simp only [withAttrsGo]
    simpa using appendAttrsGo_trace env
      (clone ⟨w, mu, lvl, gs, atr, tf, some f, src, hid⟩) [] [] f rfl (.cons k v rest)

/-- C6: deriving with an empty attribute batch or an empty group name
returns the receiver itself (the ghost identity tag is untouched), whereas
any non-empty derivation allocates a fresh instance (the tag changes). -/
theorem derive_noop_identity (env : Env) (h : Handler) :
    (withAttrsGo env h .nil).1 = h ∧
    withGroupGo h [] = h ∧
    (withAttrsGo env h .nil).1.hid = h.hid ∧
    (withGroupGo h []).hid = h.hid ∧
    (∀ k v rest, (withAttrsGo env h (.cons k v rest)).1.hid = h.hid + 1) ∧
    (∀ b name, (withGroupGo h (b :: name)).hid = h.hid + 1) := by
  refine ⟨rfl, by simp [withGroupGo], rfl, by simp [withGroupGo], ?_, ?_⟩
  · intro k v rest
    have hp := appendAttrsGo_handler env (clone h) [] [] (.cons k v rest)
    simp only [withAttrsGo]
    rw [hp]
    rfl
  · intro b name
    simp [withGroupGo, clone]

/-- C8: a time value is encoded as the abstract formatter's output for the
configured layout, wrapped in double quotes exactly when the quoting
predicate holds of the layout string itself; the formatted bytes are spliced
in verbatim — the statement holds for every formatter `fmtT`, so the
decision can never depend on, nor escape, the formatted result. -/
theorem time_value_quoting_layout_based (isPrint : Nat → Bool)
    (fmtT : Nat → List Nat → List Nat) (spr : Value → List Nat)
    (h : Handler) (buf : List Nat) (t : Nat) :
    appendValGo ⟨isPrint, fmtT, spr⟩ h buf (.vtime t) =
      buf ++ (if needsQuotingGo isPrint h.timeFormat then
          0x22 :: fmtT t h.timeFormat ++ [0x22]
        else fmtT t h.timeFormat) := by
  by_cases hq : needsQuotingGo isPrint h.timeFormat = true
  · simp [appendValGo, hq, List.append_assoc]
  · simp [appendValGo, hq]

/-- C9: a string of ASCII bytes none of which is space, double quote or
equals sign never triggers the quoting predicate — whatever printability
oracle is used — so `appendString` and `appendKey` emit it verbatim; in
particular a value with an embedded newline (byte `0x0A`) is spliced into
the line unquoted, splitting the log line across physical lines, as the
closed conjunct shows with value `a`, newline, `b`. -/
theorem asciiSafe_unquoted (isPrint : Nat → Bool)
    (fmtT : Nat → List Nat → List Nat) (spr : Value → List Nat) (buf s : List Nat)
    (hs : ∀ b ∈ s, b < 0x80 ∧ b ≠ 0x20 ∧ b ≠ 0x22 ∧ b ≠ 0x3D) :
    needsQuotingGo isPrint s = false ∧
    appendStringGo isPrint buf s = buf ++ s ∧
    appendKeyGo ⟨isPrint, fmtT, spr⟩ [] buf s = buf ++ 0x20 :: s ++ [0x3D] ∧
    (handleGo env0 (newHandlerGo 0 0 0 (some ⟨none, some removeTimeHook, [], false⟩))
        ⟨0, ascii "m", .cons (ascii "k") (.vstr [0x61, 0x0A, 0x62]) .nil, 0, none⟩).2.1 =
      ascii " INFO | m | k=a\nb\n" := by
  have hs' : ∀ b ∈ s, b < 0x80 ∧ forceQuoteByte b = false := by
    intro b hb
    obtain ⟨h1, h2, h3, h4⟩ := hs b hb
    exact ⟨h1, by simp [forceQuoteByte, h2, h3, h4]⟩
  have hq := needsQuoting_allSafe isPrint s hs'
  refine ⟨hq, appendString_allSafe isPrint buf s hs', ?_, by decide⟩
  unfold appendKeyGo
  have hfk : fullKey [] s = s := rfl
  rw [hfk, hq]
  simp

/-- C9 witness: the statement applied to the concrete string consisting of
a newline and a tab byte. -/
theorem asciiSafe_unquoted_witness :
    needsQuotingGo (fun _ => true) [0x0A, 0x09] = false ∧
    appendStringGo (fun _ => true) [] [0x0A, 0x09] = [] ++ [0x0A, 0x09] ∧
    appendKeyGo ⟨fun _ => true, fun _ l => l, fun _ => []⟩ [] [] [0x0A, 0x09] =
      [] ++ 0x20 :: [0x0A, 0x09] ++ [0x3D] ∧
    (handleGo env0 (newHandlerGo 0 0 0 (some ⟨none, some removeTimeHook, [], false⟩))
        ⟨0, ascii "m", .cons (ascii "k") (.vstr [0x61, 0x0A, 0x62]) .nil, 0, none⟩).2.1 =
      ascii " INFO | m | k=a\nb\n" :=
  asciiSafe_unquoted (fun _ => true) (fun _ l => l) (fun _ => []) [] [0x0A, 0x09]
    (by decide)

mutual
/-- Every hook call prescribed for one attribute under group path `gs`
carries a path extending `gs`: the path only ever grows by nested group
keys. -/
theorem leafCallsV_path (gs : List (List Nat)) (key : List Nat) :
    ∀ (v : Value) (p : List (List Nat)) (k' : List Nat) (v' : Value),
      (p, k', v') ∈ leafCallsV gs key v → ∃ suff, p = gs ++ suff
  | .vresolve v, p, k', v', hm => by
    simp only [leafCallsV] at hm
    exact leafCallsV_path gs key v p k' v' hm
  | .vgroup .nil, p, k', v', hm => by simp [leafCallsV] at hm
  | .vgroup (.cons k0 v0 rest), p, k', v', hm => by
    simp only [leafCallsV] at hm
    by_cases hk : key = []
    · rw [if_pos hk] at hm
      exact leafCallsL_path gs (.cons k0 v0 rest) p k' v' hm
    · rw [if_neg hk] at hm
      obtain ⟨s, hs⟩ := leafCallsL_path (gs ++ [key]) (.cons k0 v0 rest) p k' v' hm
      exact ⟨[key] ++ s, by rw [hs, List.append_assoc]⟩
  | .vnil, p, k', v', hm => by
    simp only [leafCallsV, List.mem_singleton, Prod.mk.injEq] at hm
    exact ⟨[], by simp [hm.1]⟩
  | .vstr s, p, k', v', hm => by
    simp only [leafCallsV, List.mem_singleton, Prod.mk.injEq] at hm
    exact ⟨[], by simp [hm.1]⟩
  | .vint i, p, k', v', hm => by
    simp only [leafCallsV, List.mem_singleton, Prod.mk.injEq] at hm
    exact ⟨[], by simp [hm.1]⟩
  | .vuint u, p, k', v', hm => by
    simp only [leafCallsV, List.mem_singleton, Prod.mk.injEq] at hm
    exact ⟨[], by simp [hm.1]⟩
  | .vfloat txt, p, k', v', hm => by
    simp only [leafCallsV, List.mem_singleton, Prod.mk.injEq] at hm
    exact ⟨[], by simp [hm.1]⟩
  | .vbool b, p, k', v', hm => by
    simp only [leafCallsV, List.mem_singleton, Prod.mk.injEq] at hm
    exact ⟨[], by simp [hm.1]⟩
  | .vdur txt, p, k', v', hm => by
    simp only [leafCallsV, List.mem_singleton, Prod.mk.injEq] at hm
    exact ⟨[], by simp [hm.1]⟩
  | .vtime t, p, k', v', hm => by
    simp only [leafCallsV, List.mem_singleton, Prod.mk.injEq] at hm
    exact ⟨[], by simp [hm.1]⟩
  | .vany tm txt, p, k', v', hm => by
    simp only [leafCallsV, List.mem_singleton, Prod.mk.injEq] at hm
    exact ⟨[], by simp [hm.1]⟩

/-- List version of `leafCallsV_path`. -/
theorem leafCallsL_path (gs : List (List Nat)) :
    ∀ (as : AttrList) (p : List (List Nat)) (k' : List Nat) (v' : Value),
      (p, k', v') ∈ leafCallsL gs as → ∃ suff, p = gs ++ suff
  | .nil, p, k', v', hm => by simp [leafCallsL] at hm
  | .cons k v rest, p, k', v', hm => by
    simp only [leafCallsL, List.mem_append] at hm
    cases hm with
    | inl h1 => exact leafCallsV_path gs k v p k' v' h1
    | inr h2 => exact leafCallsL_path gs rest p k' v' h2
end

/-- C10: for every handler whose accumulated group path is non-empty
(`g0 :: gtl`), every hook, record and environment: (1) the hook journal of
one `Handle` call lists the event-local leaves under the handler's path,
then — iff enabled with a caller location — the source pseudo-attribute
under the handler's path, then the time pseudo-attribute under the empty
path; (2) consequently every journalled hook call is either the bare-path
time call or carries the handler's path as a prefix; (3) the time
pseudo-attribute is emitted keyed by exactly the hook-returned key — no
dotted group-path prefix, although the handler's path is non-empty; (4) the
source pseudo-attribute, processed by `appendAttr` exactly as `Handle`
invokes it, is emitted keyed by the dotted group path joined onto its key;
(5) every leaf reaching the leaf step under this handler — in particular
every top-level event-local attribute — is likewise emitted with the dotted
group-path prefix; (6) a closed end-to-end instance shows the resulting
line bytes. -/
theorem time_bare_key_source_prefixed (env : Env) (f : Hook) (w mu : Nat)
    (lvl : Int) (g0 : List Nat) (gtl : List (List Nat)) (atr tf : List Nat)
    (src : Bool) (hid : Nat) (r : Record) :
    (handleGo env ⟨w, mu, lvl, g0 :: gtl, atr, tf, some f, src, hid⟩ r).2.2 =
      leafCallsL (g0 :: gtl) r.attrs ++
        (if src then
           (match r.pc with
            | some info => [(g0 :: gtl, ascii "source", Value.vstr info)]
            | none => [])
         else []) ++ [([], ascii "time", Value.vtime r.rtime)] ∧
    (∀ p k' v',
      (p, k', v') ∈
          (handleGo env ⟨w, mu, lvl, g0 :: gtl, atr, tf, some f, src, hid⟩ r).2.2 →
        (p = [] ∧ k' = ascii "time" ∧ v' = Value.vtime r.rtime) ∨
          ∃ suff, p = (g0 :: gtl) ++ suff) ∧
    (∃ pre, (handleGo env ⟨w, mu, lvl, g0 :: gtl, atr, tf, some f, src, hid⟩ r).2.1 =
      (if r.rtime != 0 &&
          !(isEmptyAttr (f [] (ascii "time") (Value.vtime r.rtime)).1
              (f [] (ascii "time") (Value.vtime r.rtime)).2) then
         appendValGo env ⟨w, mu, lvl, g0 :: gtl, atr, tf, some f, src, hid⟩
           (pre ++ 0x20 ::
             (if needsQuotingGo env.isPrint
                 (f [] (ascii "time") (Value.vtime r.rtime)).1 then
                goQuote env.isPrint (f [] (ascii "time") (Value.vtime r.rtime)).1
              else (f [] (ascii "time") (Value.vtime r.rtime)).1) ++ [0x3D])
           (f [] (ascii "time") (Value.vtime r.rtime)).2
       else pre) ++ [0x0A]) ∧
    (∀ info buf tr,
      appendAttrGo env ⟨w, mu, lvl, g0 :: gtl, atr, tf, some f, src, hid⟩ buf tr
          (ascii "source") (.vstr info) =
        (if isEmptyAttr (f (g0 :: gtl) (ascii "source") (.vstr info)).1
            (f (g0 :: gtl) (ascii "source") (.vstr info)).2 then
           (⟨w, mu, lvl, g0 :: gtl, atr, tf, some f, src, hid⟩, buf,
             tr ++ [(g0 :: gtl, ascii "source", Value.vstr info)])
         else
           (⟨w, mu, lvl, g0 :: gtl, atr, tf, some f, src, hid⟩,
             appendValGo env ⟨w, mu, lvl, g0 :: gtl, atr, tf, some f, src, hid⟩
               (buf ++ 0x20 ::
                 (if needsQuotingGo env.isPrint
                     (joinDot (g0 :: gtl) ++ 0x2E ::
                       (f (g0 :: gtl) (ascii "source") (.vstr info)).1) then
                    goQuote env.isPrint
                      (joinDot (g0 :: gtl) ++ 0x2E ::
                        (f (g0 :: gtl) (ascii "source") (.vstr info)).1)
                  else joinDot (g0 :: gtl) ++ 0x2E ::
                        (f (g0 :: gtl) (ascii "source") (.vstr info)).1) ++ [0x3D])
               (f (g0 :: gtl) (ascii "source") (.vstr info)).2,
             tr ++ [(g0 :: gtl, ascii "source", Value.vstr info)]))) ∧
    (∀ buf tr k v,
      appendLeafGo env ⟨w, mu, lvl, g0 :: gtl, atr, tf, some f, src, hid⟩ buf tr k v =
        (if isEmptyAttr (f (g0 :: gtl) k v).1 (f (g0 :: gtl) k v).2 then
           (⟨w, mu, lvl, g0 :: gtl, atr, tf, some f, src, hid⟩, buf,
             tr ++ [(g0 :: gtl, k, v)])
         else
           (⟨w, mu, lvl, g0 :: gtl, atr, tf, some f, src, hid⟩,
             appendValGo env ⟨w, mu, lvl, g0 :: gtl, atr, tf, some f, src, hid⟩
               (buf ++ 0x20 ::
                 (if needsQuotingGo env.isPrint
                     (joinDot (g0 :: gtl) ++ 0x2E :: (f (g0 :: gtl) k v).1) then
                    goQuote env.isPrint
                      (joinDot (g0 :: gtl) ++ 0x2E :: (f (g0 :: gtl) k v).1)
                  else joinDot (g0 :: gtl) ++ 0x2E :: (f (g0 :: gtl) k v).1) ++ [0x3D])
               (f (g0 :: gtl) k v).2,
             tr ++ [(g0 :: gtl, k, v)]))) ∧
    (handleGo env0 ⟨0, 0, 0, [ascii "g"], [], ascii "L", none, true, 0⟩
        ⟨0, ascii "m", .cons (ascii "k") (.vstr (ascii "v")) .nil, 5,
          some (ascii "a.go:1")⟩).2.1 =
      ascii " INFO | m | g.k=v g.source=a.go:1 time=L\n" := by
  refine ⟨handleGo_trace env _ r f rfl, ?_, ?_, ?_, ?_, by decide⟩
  · intro p k' v' hm
    rw [handleGo_trace env _ r f rfl] at hm
    simp only [List.mem_append] at hm
    rcases hm with (hm | hm) | hm
    · exact Or.inr (leafCallsL_path (g0 :: gtl) r.attrs p k' v' hm)
    · right
      refine ⟨[], ?_⟩
      cases hsv : src with
      | false =>
        rw [hsv] at hm
        simp at hm
      | true =>
        rw [hsv, if_pos rfl] at hm
        cases hpc : r.pc with
        | some info =>
          rw [hpc] at hm
          simp only [List.mem_singleton, Prod.mk.injEq] at hm
          simp [hm.1]
        | none =>
          rw [hpc] at hm
          simp at hm
    · left
      simp only [List.mem_singleton, Prod.mk.injEq] at hm
      exact ⟨hm.1, hm.2.1, hm.2.2⟩
  · cases src with
    | true =>
      cases hpc : r.pc with
      | some info =>
        simp only [handleGo, hpc, eq_self_iff_true, if_true]
        rw [appendAttrGo_handler, appendAttrsGo_handler]
        exact ⟨_, rfl⟩
      | none =>
        simp only [handleGo, hpc, eq_self_iff_true, if_true]
        rw [appendAttrsGo_handler]
        exact ⟨_, rfl⟩
    | false =>
      simp only [handleGo, Bool.false_eq_true, if_false]
      rw [appendAttrsGo_handler]
      exact ⟨_, rfl⟩
  · intro info buf tr
    rfl
  · intro buf tr k v
    rfl
